import Mathlib

/-!
# Verification of the Guitar-Tuner pitch pipeline

Shallow embedding of the pitch-estimation pipeline of the repository
(`src/Linux/extend.cpp`, `src/tuner.cpp`) over idealised real arithmetic.
C++ `double` values are modelled as `ℝ`; IEEE results that are not real
numbers (NaN, ±inf) and out-of-bounds reads are modelled as `Option.none`.
-/

namespace Tuner

/-- Constant `FFTAnalyzer::window_size` in extend.cpp (line 92). -/
def window_size : ℕ := 4096

/-- The hardcoded sample rate `44100.0` used in `FFTAnalyzer::analyze`
(extend.cpp line 144). -/
def sampleRate : ℝ := 44100

/-- One FFT output bin `fftw_complex`: (real part, imaginary part). -/
abbrev Bin := ℝ × ℝ

/-- Magnitude `std::hypot(output[i][0], output[i][1])` (extend.cpp line 131). -/
noncomputable def mag (c : Bin) : ℝ := Real.sqrt (c.1 ^ 2 + c.2 ^ 2)

/-- One iteration of the max-magnitude loop in `FFTAnalyzer::analyze`
(extend.cpp lines 130-136): the accumulator is `(max_bin, max_magnitude)`,
updated when `magnitude > max_magnitude`. -/
noncomputable def maxStep (out : ℕ → Bin) (acc : ℕ × ℝ) (i : ℕ) : ℕ × ℝ :=
  if acc.2 < mag (out i) then (i, mag (out i)) else acc

/-- The max-magnitude loop of `FFTAnalyzer::analyze`: `max_bin = 0`,
`max_magnitude = 0.0`, then `for (i = 1; i < window_size/2 - 1; ++i)`,
i.e. indices `1..2046`. -/
noncomputable def maxScan (out : ℕ → Bin) : ℕ × ℝ :=
  (List.range' 1 (window_size / 2 - 2)).foldl (maxStep out) (0, 0)

/-- Function `std::log x` for `x = std::abs(...) ≥ 0`, as a real number: C++ returns
`-inf` at `x = 0`, which is not a real value, so the embedding is partial. -/
noncomputable def safeLog (x : ℝ) : Option ℝ :=
  if 0 < x then some (Real.log x) else none

/-- The quadratic-interpolation stage of `FFTAnalyzer::analyze`
(extend.cpp lines 138-144).  The C++ code performs
`alpha = log(abs(output[max_bin-1][0]))` (etc., on the *real parts*) and
`peak_bin = max_bin + 0.5*(alpha-gamma)/(alpha-2*beta+gamma)` with no guard,
then returns `peak_bin * 44100.0 / window_size`.
Modelling of the non-real IEEE outcomes:
* `max_bin = 0` (never updated): `output[max_bin-1]` is an out-of-bounds read
  (`size_t` wrap-around), undefined behaviour, modelled `none`;
* a zero argument to `log` gives `-inf`; propagating it through the delta
  expression yields NaN (hence `none`) in every case except when *only* the
  centre log is `-inf`, where IEEE gives `delta = (finite)/(+inf) = 0` and the
  unrefined frequency is returned;
* a zero denominator gives `±inf` or NaN for `peak_bin`, modelled `none`. -/
noncomputable def refineFreq (out : ℕ → Bin) : Option ℝ :=
  let mb := (maxScan out).1
  if mb = 0 then none
  else
    match safeLog |(out (mb - 1)).1|, safeLog |(out mb).1|, safeLog |(out (mb + 1)).1| with
    | some a, some b, some c =>
      if a - 2 * b + c = 0 then none
      else some (((mb : ℝ) + 0.5 * (a - c) / (a - 2 * b + c)) * sampleRate / (window_size : ℝ))
    | some _, none, some _ => some ((mb : ℝ) * sampleRate / (window_size : ℝ))
    | _, _, _ => none

/-- Function `compute_fft` of tuner.cpp (lines 56-67): tracks
`(max_magnitude, dominant_frequency)` over bins `0..num_samples/2 - 1`,
updating `dominant_frequency = i * sampleRate / num_samples` on a strict
increase of the magnitude; returns `dominant_frequency` (initially `0.0`). -/
noncomputable def compute_fft_freq (out : ℕ → Bin) (num_samples : ℕ) (sr : ℝ) : ℝ :=
  ((List.range (num_samples / 2)).foldl
    (fun acc i =>
      if acc.1 < mag (out i) then (mag (out i), (i : ℝ) * sr / (num_samples : ℝ)) else acc)
    (0, 0)).2

/-! ### Generic facts about the max-magnitude fold -/

theorem maxStep_of_le (out : ℕ → Bin) (acc : ℕ × ℝ) (i : ℕ)
    (h : mag (out i) ≤ acc.2) : maxStep out acc i = acc := by
  simp [maxStep, not_lt.mpr h]

theorem maxStep_of_lt (out : ℕ → Bin) (acc : ℕ × ℝ) (i : ℕ)
    (h : acc.2 < mag (out i)) : maxStep out acc i = (i, mag (out i)) := by
  simp [maxStep, h]

theorem maxFold_const (out : ℕ → Bin) :
    ∀ (l : List ℕ) (acc : ℕ × ℝ), (∀ i ∈ l, mag (out i) ≤ acc.2) →
      l.foldl (maxStep out) acc = acc := by
  intro l
  induction l with
  | nil => intro acc _; rfl
  | cons x t ih =>
    intro acc h
    have hx : mag (out x) ≤ acc.2 := h x (List.mem_cons_self x t)
    rw [List.foldl_cons, maxStep_of_le out acc x hx]
    exact ih acc (fun i hi => h i (List.mem_cons_of_mem x hi))

theorem maxFold_inv (out : ℕ → Bin) :
    ∀ (l : List ℕ) (acc : ℕ × ℝ),
      (l.foldl (maxStep out) acc = acc ∨
        ((l.foldl (maxStep out) acc).1 ∈ l ∧
          (l.foldl (maxStep out) acc).2 = mag (out (l.foldl (maxStep out) acc).1) ∧
          acc.2 < (l.foldl (maxStep out) acc).2)) ∧
      acc.2 ≤ (l.foldl (maxStep out) acc).2 ∧
      ∀ i ∈ l, mag (out i) ≤ (l.foldl (maxStep out) acc).2 := by
  intro l
  induction l with
  | nil => intro acc; exact ⟨Or.inl rfl, le_refl _, by simp⟩
  | cons x t ih =>
    intro acc
    rw [List.foldl_cons]
    by_cases hx : acc.2 < mag (out x)
    · rw [maxStep_of_lt out acc x hx]
      obtain ⟨hmem, hmono, hmax⟩ := ih (x, mag (out x))
      refine ⟨?_, le_trans (le_of_lt hx) hmono, ?_⟩
      · rcases hmem with heq | ⟨h1, h2, h3⟩
        · exact Or.inr ⟨by rw [heq]; exact List.mem_cons_self x t,
            by rw [heq], by rw [heq]; exact hx⟩
        · exact Or.inr ⟨List.mem_cons_of_mem x h1, h2, lt_trans hx h3⟩
      · intro i hi
        rcases List.mem_cons.mp hi with rfl | hit
        · exact hmono
        · exact hmax i hit
    · rw [maxStep_of_le out acc x (not_lt.mp hx)]
      obtain ⟨hmem, hmono, hmax⟩ := ih acc
      refine ⟨?_, hmono, ?_⟩
      · rcases hmem with heq | ⟨h1, h2, h3⟩
        · exact Or.inl heq
        · exact Or.inr ⟨List.mem_cons_of_mem x h1, h2, h3⟩
      · intro i hi
        rcases List.mem_cons.mp hi with rfl | hit
        · exact le_trans (not_lt.mp hx) hmono
        · exact hmax i hit

/-! ### Concrete magnitude values -/

theorem mag_one_zero : mag (1, 0) = 1 := by
  simp [mag]

theorem mag_zero_zero : mag ((0 : ℝ), (0 : ℝ)) = 0 := by
  simp [mag]

/-- The all-ones flat spectrum: every bin is `(1, 0)`. -/
noncomputable def flatSpectrum : ℕ → Bin := fun _ => (1, 0)

theorem maxScan_flat : maxScan flatSpectrum = (1, 1) := by
  have h2046 : window_size / 2 - 2 = 2046 := by norm_num [window_size]
  have hsplit : List.range' 1 2046 = List.range' 1 1 ++ List.range' 2 2045 := by
    rw [List.range'_append_1]
  rw [maxScan, h2046, hsplit, List.foldl_append]
  have h1 : List.foldl (maxStep flatSpectrum) (0, 0) (List.range' 1 1) = (1, 1) := by
    have : mag (flatSpectrum 1) = 1 := mag_one_zero
    simp only [List.range'_one, List.foldl_cons, List.foldl_nil]
    rw [maxStep_of_lt _ _ _ (by rw [this]; norm_num)]
    rw [this]
  rw [h1]
  exact maxFold_const flatSpectrum _ (1, 1)
    (fun i _ => by rw [show flatSpectrum i = (1, 0) from rfl, mag_one_zero])

/-- C1 (code evaluated at the failing input): on a spectrum whose bins all
have the same magnitude (every bin `(1,0)`), the three logs are equal, the
parabola denominator `alpha - 2*beta + gamma` is `0`, and the code divides by
zero (IEEE NaN, modelled `none`) instead of falling back to the unrefined
`max_bin` frequency `1 * 44100 / 4096` required by the claim. -/
theorem refineFreq_flat_is_undefined : refineFreq flatSpectrum = none := by
  rw [refineFreq]
  rw [maxScan_flat]
  simp only [flatSpectrum]
  norm_num [safeLog]

/-! ### C2: no absent value, and the result can be non-positive -/

/-- The all-zero spectrum: no bin has positive magnitude. -/
noncomputable def zeroSpectrum : ℕ → Bin := fun _ => (0, 0)

theorem maxScan_zero : maxScan zeroSpectrum = (0, 0) := by
  exact maxFold_const zeroSpectrum _ (0, 0)
    (fun i _ => by rw [show zeroSpectrum i = (0, 0) from rfl, mag_zero_zero])

/-- A spectrum on which the refined `peak_bin` is `-1`, so the returned
"frequency" is negative: bin 1 carries the dominant magnitude (via its
imaginary part) while the real parts of bins 0, 1, 2 are `1`, `e^(3/4)`,
`e^2`, giving `alpha = 0`, `beta = 3/4`, `gamma = 2` and
`delta = 0.5*(0-2)/(0-3/2+2) = -2`. -/
noncomputable def negPeakSpectrum : ℕ → Bin := fun i =>
  if i = 0 then (1, 0)
  else if i = 1 then (Real.exp (3 / 4), 100)
  else if i = 2 then (Real.exp 2, 0)
  else (0, 0)

theorem mag_negPeak_one_large : (100 : ℝ) ≤ mag (negPeakSpectrum 1) := by
  have h1 : negPeakSpectrum 1 = (Real.exp (3 / 4), 100) := rfl
  rw [h1, mag]
  have h2 : Real.sqrt ((100 : ℝ) ^ 2) ≤
      Real.sqrt ((Real.exp (3 / 4), (100 : ℝ)).1 ^ 2 + (Real.exp (3 / 4), (100 : ℝ)).2 ^ 2) :=
    Real.sqrt_le_sqrt (by nlinarith [sq_nonneg (Real.exp (3 / 4))])
  rwa [Real.sqrt_sq (by norm_num : (0 : ℝ) ≤ 100)] at h2

theorem exp_two_lt_100 : Real.exp 2 < 100 := by
  have h1 : Real.exp 1 < 2.7182818286 := Real.exp_one_lt_d9
  have h2 : Real.exp 2 = Real.exp 1 * Real.exp 1 := by
    rw [← Real.exp_add]; norm_num
  nlinarith [Real.exp_pos 1]

theorem maxScan_negPeak : maxScan negPeakSpectrum = (1, mag (negPeakSpectrum 1)) := by
  have h2046 : window_size / 2 - 2 = 2046 := by norm_num [window_size]
  have hsplit : List.range' 1 2046 = List.range' 1 2 ++ List.range' 3 2044 := by
    rw [List.range'_append_1]
  rw [maxScan, h2046, hsplit, List.foldl_append]
  have hpos : (0 : ℝ) < mag (negPeakSpectrum 1) := lt_of_lt_of_le (by norm_num) mag_negPeak_one_large
  have hm2 : mag (negPeakSpectrum 2) ≤ mag (negPeakSpectrum 1) := by
    have h2 : negPeakSpectrum 2 = (Real.exp 2, 0) := rfl
    have : mag (negPeakSpectrum 2) = Real.exp 2 := by
      rw [h2, mag]
      simp
      rw [Real.sqrt_sq (Real.exp_pos 2).le]
    rw [this]
    exact le_trans exp_two_lt_100.le mag_negPeak_one_large
  have h12 : List.range' 1 2 = [1, 2] := rfl
  have hfold2 : List.foldl (maxStep negPeakSpectrum) (0, 0) (List.range' 1 2)
      = (1, mag (negPeakSpectrum 1)) := by
    rw [h12]
    simp only [List.foldl_cons, List.foldl_nil]
    rw [maxStep_of_lt negPeakSpectrum ((0 : ℕ), (0 : ℝ)) 1 hpos]
    rw [maxStep_of_le negPeakSpectrum (1, mag (negPeakSpectrum 1)) 2 hm2]
  rw [hfold2]
  apply maxFold_const
  intro i hi
  rw [List.mem_range'_1] at hi
  have : negPeakSpectrum i = (0, 0) := by
    have h3 : i ≠ 0 := by omega
    have h4 : i ≠ 1 := by omega
    have h5 : i ≠ 2 := by omega
    simp [negPeakSpectrum, h3, h4, h5]
  rw [this, mag_zero_zero]
  exact hpos.le

/-- C2 (code evaluated at the failing inputs): the Peak Refiner has no
absent path.  On the all-zero spectrum `max_bin` is never updated and the
code reads `output[max_bin - 1] = output[(size_t)-1]` out of bounds
(undefined behaviour, modelled `none`) instead of returning a clean absent
value; on `negPeakSpectrum` a peak *is* found yet the returned frequency is
`-44100/4096 < 0`, violating the claimed positivity guarantee; tuner.cpp's
`compute_fft` likewise returns `0.0` (not absent, and not positive) when no
bin has positive magnitude. -/
theorem refineFreq_no_absent_and_nonpositive :
    refineFreq zeroSpectrum = none ∧
    refineFreq negPeakSpectrum = some (-(44100 / 4096 : ℝ)) ∧
    (-(44100 / 4096 : ℝ)) < 0 ∧
    ∀ n : ℕ, ∀ sr : ℝ, compute_fft_freq zeroSpectrum n sr = 0 := by
  refine ⟨?_, ?_, by norm_num, ?_⟩
  · rw [refineFreq, maxScan_zero]
    rfl
  · rw [refineFreq, maxScan_negPeak]
    have e0 : safeLog |(negPeakSpectrum (1 - 1)).1| = some 0 := by
      norm_num [negPeakSpectrum, safeLog]
    have e1 : safeLog |(negPeakSpectrum 1).1| = some (3 / 4) := by
      have h1 : negPeakSpectrum 1 = (Real.exp (3 / 4), 100) := rfl
      rw [h1]
      simp [safeLog, abs_of_pos (Real.exp_pos _), Real.exp_pos, Real.log_exp]
    have e2 : safeLog |(negPeakSpectrum (1 + 1)).1| = some 2 := by
      have h2 : negPeakSpectrum 2 = (Real.exp 2, 0) := rfl
      show safeLog |(negPeakSpectrum 2).1| = some 2
      rw [h2]
      simp [safeLog, abs_of_pos (Real.exp_pos _), Real.exp_pos, Real.log_exp]
    simp only [e0, e1, e2]
    norm_num [sampleRate, window_size]
  · intro n sr
    rw [compute_fft_freq]
    have : ∀ l : List ℕ, List.foldl
        (fun acc i => if acc.1 < mag (zeroSpectrum i)
          then (mag (zeroSpectrum i), (i : ℝ) * sr / (n : ℝ)) else acc)
        ((0 : ℝ), (0 : ℝ)) l = (0, 0) := by
      intro l
      induction l with
      | nil => rfl
      | cons x t ih =>
        rw [List.foldl_cons]
        rw [if_neg (by rw [show zeroSpectrum x = (0, 0) from rfl, mag_zero_zero]; norm_num)]
        exact ih
    rw [this]

/-! ### C3: the amplitude gate -/

/-- Constant `GuitarTuner::MIN_AMPLITUDE` (extend.cpp line 212). -/
noncomputable def MIN_AMPLITUDE : ℝ := 0.01

/-- The RMS computation of `GuitarTuner::process_audio` (extend.cpp lines
232-235): `std::transform_reduce(input, 0.0, plus, x*x)` followed by
`sqrt(rms / input.size())`. -/
noncomputable def rmsOf (input : List ℝ) : ℝ :=
  Real.sqrt ((input.foldl (fun acc x => acc + x * x) 0) / (input.length : ℝ))

/-- The amplitude gate `if (rms > MIN_AMPLITUDE)` (extend.cpp line 237). -/
def should_analyze (input : List ℝ) : Prop := MIN_AMPLITUDE < rmsOf input

theorem foldl_add_sq (l : List ℝ) :
    ∀ acc : ℝ, l.foldl (fun acc x => acc + x * x) acc = acc + (l.map (fun x => x * x)).sum := by
  induction l with
  | nil => intro acc; simp
  | cons x t ih =>
    intro acc
    rw [List.foldl_cons, List.map_cons, List.sum_cons, ih (acc + x * x)]
    ring

/-- C3: the gate holds iff `sqrt(mean(sample^2)) > 0.01`; a window of `n > 0`
all-zero samples is always rejected, and a constant window at amplitude `1.0`
is always accepted. -/
theorem gate_rms_characterisation :
    (∀ input : List ℝ,
      should_analyze input ↔ 0.01 < Real.sqrt ((input.map (fun x => x * x)).sum / (input.length : ℝ))) ∧
    (∀ n : ℕ, 0 < n → ¬ should_analyze (List.replicate n 0)) ∧
    (∀ n : ℕ, 0 < n → should_analyze (List.replicate n 1)) := by
  have hrms : ∀ input : List ℝ,
      rmsOf input = Real.sqrt ((input.map (fun x => x * x)).sum / (input.length : ℝ)) := by
    intro input
    rw [rmsOf, foldl_add_sq, zero_add]
  refine ⟨fun input => by rw [should_analyze, hrms, MIN_AMPLITUDE], ?_, ?_⟩
  · intro n hn
    rw [should_analyze, hrms]
    simp only [List.map_replicate, mul_zero, List.sum_replicate, smul_zero,
      List.length_replicate]
    rw [zero_div, Real.sqrt_zero, MIN_AMPLITUDE]
    norm_num
  · intro n hn
    rw [should_analyze, hrms]
    simp only [List.map_replicate, mul_one, List.sum_replicate, nsmul_eq_mul,
      mul_one, List.length_replicate]
    rw [div_self (by exact_mod_cast hn.ne' : (n : ℝ) ≠ 0), Real.sqrt_one, MIN_AMPLITUDE]
    norm_num

/-- C3 witness at `n = 3`. -/
theorem gate_rms_characterisation_witness :
    (0 : ℕ) < 3 ∧ ¬ should_analyze (List.replicate 3 0) ∧ should_analyze (List.replicate 3 1) :=
  ⟨by norm_num, gate_rms_characterisation.2.1 3 (by norm_num),
    gate_rms_characterisation.2.2 3 (by norm_num)⟩

/-! ### The windowing stage and analyzer state (C7, C9, C10) -/

/-- The Hann coefficients written into the `window` buffer by the
`FFTAnalyzer` constructor (extend.cpp lines 103-105):
`window[i] = 0.5 * (1 - cos(2*pi*i / (window_size - 1)))`. -/
noncomputable def hann (i : ℕ) : ℝ :=
  0.5 * (1 - Real.cos (2 * Real.pi * (i : ℝ) / ((window_size : ℝ) - 1)))

/-- The "Apply window function" loop of `FFTAnalyzer::analyze`
(extend.cpp lines 120-122): `window[i] = audio_data[i] * window[i]`.
Note this *overwrites* the stored buffer with the product. -/
noncomputable def windowedOf (buf audio : ℕ → ℝ) : ℕ → ℝ := fun i => audio i * buf i

/-- Real part of FFTW r2c output bin `k`:
`X_k = sum_n x_n e^(-2 pi i k n / N)`. -/
noncomputable def dftRe (w : ℕ → ℝ) (k : ℕ) : ℝ :=
  ∑ n ∈ Finset.range window_size, w n * Real.cos (2 * Real.pi * (k : ℝ) * (n : ℝ) / (window_size : ℝ))

/-- Imaginary part of FFTW r2c output bin `k`. -/
noncomputable def dftIm (w : ℕ → ℝ) (k : ℕ) : ℝ :=
  -∑ n ∈ Finset.range window_size, w n * Real.sin (2 * Real.pi * (k : ℝ) * (n : ℝ) / (window_size : ℝ))

/-- The spectrum produced by `fftw_execute(plan)` from the (windowed)
contents of the `window` buffer. -/
noncomputable def spectrumAt (w : ℕ → ℝ) : ℕ → Bin := fun k => (dftRe w k, dftIm w k)

/-- Method `FFTAnalyzer::analyze` as a state machine on the `window` buffer
(extend.cpp lines 114-145): reject a span whose size differs from
`window_size`; otherwise overwrite the buffer with the pointwise product,
run the FFT on it, and return the refined dominant frequency. -/
noncomputable def analyze (buf : ℕ → ℝ) (audio : List ℝ) : (ℕ → ℝ) × Except String (Option ℝ) :=
  if audio.length ≠ window_size then (buf, Except.error ("Invalid audio buffer size"))
  else
    (windowedOf buf (fun i => audio.getD i 0),
      Except.ok (refineFreq (spectrumAt (windowedOf buf (fun i => audio.getD i 0)))))

theorem hann_one_pos : 0 < hann 1 := by
  rw [hann]
  have hcos_le : Real.cos (2 * Real.pi * (1 : ℝ) / ((window_size : ℝ) - 1)) ≤ 1 :=
    Real.cos_le_one _
  have hcos_ne : Real.cos (2 * Real.pi * (1 : ℝ) / ((window_size : ℝ) - 1)) ≠ 1 := by
    intro h
    rw [Real.cos_eq_one_iff] at h
    obtain ⟨n, hn⟩ := h
    have hws : ((window_size : ℝ) - 1) = 4095 := by norm_num [window_size]
    rw [hws] at hn
    have hpi : (0 : ℝ) < 2 * Real.pi := by positivity
    have e1 : (n : ℝ) * (2 * Real.pi) * 4095 = 2 * Real.pi := by
      rw [hn]; ring
    have e2 : ((4095 * n : ℤ) : ℝ) * (2 * Real.pi) = 1 * (2 * Real.pi) := by
      push_cast
      ring_nf
      ring_nf at e1
      linarith
    have e3 : (4095 * n : ℤ) = 1 := by
      exact_mod_cast mul_right_cancel₀ hpi.ne' e2
    omega
  have : Real.cos (2 * Real.pi * (1 : ℝ) / ((window_size : ℝ) - 1)) < 1 :=
    lt_of_le_of_ne hcos_le hcos_ne
  nlinarith

/-- The constant-`2.0` test window. -/
noncomputable def constTwoAudio : List ℝ := List.replicate window_size 2

theorem constTwoAudio_getD (i : ℕ) (h : i < window_size) : constTwoAudio.getD i 0 = 2 := by
  rw [constTwoAudio, List.getD_eq_getElem?_getD, List.getElem?_replicate_of_lt h]
  rfl

/-- C7 (code evaluated at the failing input): on the *second* consecutive
`analyze` call with the constant-2.0 window, the buffer handed to the FFT no
longer equals `audio[i] * hann[i]`: the first call destroyed the Hann
coefficients, so the second call multiplies the audio by the previous
windowed signal (`4 * hann 1` instead of `2 * hann 1` at index 1). -/
theorem second_call_does_not_apply_hann :
    (analyze (analyze hann constTwoAudio).1 constTwoAudio).1 1 ≠ constTwoAudio.getD 1 0 * hann 1 := by
  have hlen : constTwoAudio.length = window_size := List.length_replicate _ _
  have hred : ∀ buf : ℕ → ℝ, (analyze buf constTwoAudio).1 = windowedOf buf (fun i => constTwoAudio.getD i 0) := by
    intro buf
    rw [analyze, if_neg (by simp [hlen])]
  rw [hred, hred]
  have h2 : constTwoAudio.getD 1 0 = 2 := constTwoAudio_getD 1 (by norm_num [window_size])
  simp only [windowedOf, h2]
  have := hann_one_pos
  intro hcontra
  nlinarith

/-- The test window that is `1.0` everywhere except `2.0` at index 1. -/
noncomputable def bumpAudio : List ℝ :=
  List.ofFn (fun i : Fin window_size => if (i : ℕ) = 1 then (2 : ℝ) else 1)

theorem bumpAudio_getD (i : ℕ) (h : i < window_size) :
    bumpAudio.getD i 0 = if i = 1 then 2 else 1 := by
  rw [bumpAudio, List.getD_eq_getElem?_getD, List.getElem?_ofFn]
  rw [List.ofFnNthVal, dif_pos h]
  rfl

theorem bumpAudio_length : bumpAudio.length = window_size := List.length_ofFn _

/-- C9 (code evaluated at the failing input): the Spectral Estimator is not
a pure function of the input window.  Two consecutive `analyze` calls with
the identical window `bumpAudio` hand different signals to the FFT, and
already bin 0 of the resulting spectra (the plain sum of the windowed
samples) differs by `2 * hann 1 ≠ 0`. -/
theorem estimator_not_deterministic :
    spectrumAt ((analyze hann bumpAudio).1) 0 ≠
      spectrumAt ((analyze (analyze hann bumpAudio).1 bumpAudio).1) 0 := by
  have hred : ∀ buf : ℕ → ℝ, (analyze buf bumpAudio).1 = windowedOf buf (fun i => bumpAudio.getD i 0) := by
    intro buf
    rw [analyze, if_neg (by simp [bumpAudio_length])]
  rw [hred, hred]
  set a : ℕ → ℝ := fun i => bumpAudio.getD i 0 with ha
  set w1 : ℕ → ℝ := windowedOf hann a with hw1
  set w2 : ℕ → ℝ := windowedOf w1 a with hw2
  have hdft0 : ∀ w : ℕ → ℝ, dftRe w 0 = ∑ n ∈ Finset.range window_size, w n := by
    intro w
    rw [dftRe]
    apply Finset.sum_congr rfl
    intro n _
    norm_num
  have hdiff : (∑ n ∈ Finset.range window_size, w2 n) - (∑ n ∈ Finset.range window_size, w1 n)
      = 2 * hann 1 := by
    rw [← Finset.sum_sub_distrib]
    rw [Finset.sum_eq_single_of_mem 1 (Finset.mem_range.mpr (by norm_num [window_size]))]
    · have ha1 : a 1 = 2 := by
        show bumpAudio.getD 1 0 = 2
        rw [bumpAudio_getD 1 (by norm_num [window_size])]
        norm_num
      rw [hw2, hw1, windowedOf, windowedOf]
      simp only [ha1]
      ring
    · intro n hn hne
      have han : a n = 1 := by
        show bumpAudio.getD n 0 = 1
        rw [bumpAudio_getD n (Finset.mem_range.mp hn)]
        simp [hne]
      rw [hw2, hw1, windowedOf, windowedOf]
      simp only [han, one_mul]
      ring
  intro hcontra
  have hfst := congrArg Prod.fst hcontra
  simp only [spectrumAt] at hfst
  rw [hdft0, hdft0] at hfst
  have := hann_one_pos
  rw [hfst] at hdiff
  nlinarith

/-! ### The note mapper (C4, C5) -/

/-- Table `TuningConfig::note_names` (extend.cpp lines 84-87). -/
def note_names : List String :=
  ["C", "C#", "D", "D#", "E", "F"] ++ ["F#", "G", "G#", "A", "A#", "B"]

/-- The `note_freq` lambda of `GuitarTuner::find_closest_note` (extend.cpp
lines 250-252): `440.0 * pow(2.0, (octave * 12 + note - 57) / 12.0)`, the
numerator computed in `int` arithmetic. -/
noncomputable def note_freq (note octave : ℕ) : ℝ :=
  440 * (2 : ℝ) ^ ((((octave : ℤ) * 12 + (note : ℤ) - 57 : ℤ) : ℝ) / 12)

/-- The candidate list of `GuitarTuner::find_closest_note` (extend.cpp lines
254-263): `cartesian_product(iota(0,8), iota(0,12))`, octave-major order,
transformed to `(note_names[note] ++ octave, note_freq(note, octave))`. -/
noncomputable def notesList : List (String × ℝ) :=
  (List.range 8).flatMap (fun octave =>
    (List.range 12).map (fun note =>
      (note_names.getD note ("") ++ toString octave, note_freq note octave)))

/-- The entry of `notesList` at flat index `i = octave * 12 + note`. -/
noncomputable def noteEntry (i : ℕ) : String × ℝ :=
  (note_names.getD (i % 12) ("") ++ toString (i / 12), note_freq (i % 12) (i / 12))

theorem notesList_eq_map : notesList = (List.range 96).map noteEntry := by rfl

theorem notesList_cons : notesList = noteEntry 0 :: (List.range' 1 95).map noteEntry := by rfl

theorem noteEntry_snd (i : ℕ) :
    (noteEntry i).2 = 440 * (2 : ℝ) ^ ((((i : ℤ) - 57 : ℤ) : ℝ) / 12) := by
  show note_freq (i % 12) (i / 12) = _
  rw [note_freq]
  have h : ((i / 12 : ℕ) : ℤ) * 12 + ((i % 12 : ℕ) : ℤ) - 57 = (i : ℤ) - 57 := by
    have h0 : (12 * (i / 12) + i % 12 : ℕ) = i := Nat.div_add_mod i 12
    have h1 : ((12 * (i / 12) + i % 12 : ℕ) : ℤ) = (i : ℤ) := by exact_mod_cast congrArg Nat.cast h0
    simp only [Nat.cast_add, Nat.cast_mul, Nat.cast_ofNat] at h1
    linarith
  rw [h]

theorem noteEntry_snd_pos (i : ℕ) : 0 < (noteEntry i).2 := by
  rw [noteEntry_snd]
  positivity

theorem noteEntry_snd_mono {i j : ℕ} (h : i < j) : (noteEntry i).2 < (noteEntry j).2 := by
  rw [noteEntry_snd, noteEntry_snd]
  have h2 : ((((i : ℤ) - 57 : ℤ) : ℝ) / 12) < ((((j : ℤ) - 57 : ℤ) : ℝ) / 12) := by
    have : (i : ℝ) < (j : ℝ) := by exact_mod_cast h
    push_cast
    linarith
  have := (Real.rpow_lt_rpow_left_iff (by norm_num : (1 : ℝ) < 2)).mpr h2
  nlinarith

/-- One comparison step of `std::ranges::min_element` with the comparator
`abs(a.second - frequency) < abs(b.second - frequency)`
(extend.cpp lines 265-268): the running minimum is replaced only on a
strict decrease of the distance. -/
noncomputable def minElemStep (f : ℝ) (acc q : String × ℝ) : String × ℝ :=
  if |q.2 - f| < |acc.2 - f| then q else acc

/-- Method `GuitarTuner::find_closest_note` (extend.cpp lines 248-271):
`min_element` scans the candidates from the first element; folding the whole
list starting from its head is the same computation because the first
comparison `|head - f| < |head - f|` is false. -/
noncomputable def find_closest_note (f : ℝ) : String × ℝ :=
  notesList.foldl (minElemStep f) (notesList.headD ("", 0))

theorem minElemStep_of_not (f : ℝ) (acc q : String × ℝ)
    (h : ¬ |q.2 - f| < |acc.2 - f|) : minElemStep f acc q = acc := by
  rw [minElemStep, if_neg h]

theorem minElemStep_of_lt (f : ℝ) (acc q : String × ℝ)
    (h : |q.2 - f| < |acc.2 - f|) : minElemStep f acc q = q := by
  rw [minElemStep, if_pos h]

theorem minFold_inv (f : ℝ) :
    ∀ (l : List (String × ℝ)) (acc : String × ℝ),
      (l.foldl (minElemStep f) acc = acc ∨
        (l.foldl (minElemStep f) acc ∈ l ∧
          |(l.foldl (minElemStep f) acc).2 - f| < |acc.2 - f|)) ∧
      |(l.foldl (minElemStep f) acc).2 - f| ≤ |acc.2 - f| ∧
      ∀ q ∈ l, |(l.foldl (minElemStep f) acc).2 - f| ≤ |q.2 - f| := by
  intro l
  induction l with
  | nil => intro acc; exact ⟨Or.inl rfl, le_refl _, by simp⟩
  | cons x t ih =>
    intro acc
    rw [List.foldl_cons]
    by_cases hx : |x.2 - f| < |acc.2 - f|
    · rw [minElemStep_of_lt f acc x hx]
      obtain ⟨hmem, hmono, hmin⟩ := ih x
      refine ⟨?_, le_trans hmono (le_of_lt hx), ?_⟩
      · rcases hmem with heq | ⟨h1, h2⟩
        · exact Or.inr ⟨by rw [heq]; exact List.mem_cons_self x t, by rw [heq]; exact hx⟩
        · exact Or.inr ⟨List.mem_cons_of_mem x h1, lt_trans h2 hx⟩
      · intro q hq
        rcases List.mem_cons.mp hq with rfl | hqt
        · exact hmono
        · exact hmin q hqt
    · rw [minElemStep_of_not f acc x hx]
      obtain ⟨hmem, hmono, hmin⟩ := ih acc
      refine ⟨?_, hmono, ?_⟩
      · rcases hmem with heq | ⟨h1, h2⟩
        · exact Or.inl heq
        · exact Or.inr ⟨List.mem_cons_of_mem x h1, h2⟩
      · intro q hq
        rcases List.mem_cons.mp hq with rfl | hqt
        · exact le_trans hmono (not_lt.mp hx)
        · exact hmin q hqt

/-- When `p` is the strict minimiser of the distance among the candidates,
the first-strict-minimum fold finds it. -/
theorem minFold_first_strict (f : ℝ) (l : List (String × ℝ)) (acc p : String × ℝ)
    (haccl : acc ∈ l) (hpl : p ∈ l)
    (hstrict : ∀ q ∈ l, q ≠ p → |p.2 - f| < |q.2 - f|) :
    l.foldl (minElemStep f) acc = p := by
  obtain ⟨hmem, hmono, hmin⟩ := minFold_inv f l acc
  set r := l.foldl (minElemStep f) acc with hr
  by_cases hrp : r = p
  · exact hrp
  · exfalso
    have hrl : r ∈ l := by
      rcases hmem with heq | ⟨h1, _⟩
      · rw [heq]; exact haccl
      · exact h1
    have h1 : |p.2 - f| < |r.2 - f| := hstrict r hrl hrp
    have h2 : |r.2 - f| ≤ |p.2 - f| := hmin p hpl
    linarith

/-- On an exact distance tie the fold keeps the earlier (lower-frequency)
candidate, provided the candidate list is sorted by frequency. -/
theorem minFold_tie (f : ℝ) :
    ∀ (l : List (String × ℝ)) (acc : String × ℝ),
      (∀ q ∈ l, acc.2 < q.2) →
      l.Pairwise (fun a b : String × ℝ => a.2 < b.2) →
      ∀ q, (q = acc ∨ q ∈ l) →
        |q.2 - f| = |(l.foldl (minElemStep f) acc).2 - f| →
        (l.foldl (minElemStep f) acc).2 ≤ q.2 := by
  intro l
  induction l with
  | nil =>
    intro acc _ _ q hq _
    rcases hq with rfl | h
    · exact le_refl _
    · simp at h
  | cons x t ih =>
    intro acc hsort hpair q hq htie
    rw [List.foldl_cons] at htie ⊢
    have hx_lt : ∀ q ∈ t, x.2 < q.2 := fun q hq => (List.pairwise_cons.mp hpair).1 q hq
    have hpair_t : t.Pairwise (fun a b : String × ℝ => a.2 < b.2) :=
      (List.pairwise_cons.mp hpair).2
    by_cases hcmp : |x.2 - f| < |acc.2 - f|
    · rw [minElemStep_of_lt f acc x hcmp] at htie ⊢
      rcases hq with heq | hq'
      · -- tie with the dropped accumulator is impossible: the fold's
        -- distance is at most `|x.2 - f| < |acc.2 - f|`
        exfalso
        obtain ⟨_, hmono, _⟩ := minFold_inv f t x
        have hlt : |(t.foldl (minElemStep f) x).2 - f| < |acc.2 - f| := lt_of_le_of_lt hmono hcmp
        rw [heq] at htie
        linarith
      · rcases List.mem_cons.mp hq' with heqx | hqt
        · exact ih x hx_lt hpair_t q (Or.inl heqx) htie
        · exact ih x hx_lt hpair_t q (Or.inr hqt) htie
    · rw [minElemStep_of_not f acc x hcmp] at htie ⊢
      have hsort_t : ∀ r ∈ t, acc.2 < r.2 := fun r hr => hsort r (List.mem_cons_of_mem x hr)
      rcases hq with heq | hq'
      · exact ih acc hsort_t hpair_t q (Or.inl heq) htie
      · rcases List.mem_cons.mp hq' with heqx | hqt
        · -- a tie with `x` after the fold refused `x`: the fold result is
          -- `acc` itself or strictly closer than `acc`, hence at most `x`
          obtain ⟨hmem, hmono, _⟩ := minFold_inv f t acc
          rcases hmem with heq2 | ⟨h1, h2⟩
          · rw [heq2, heqx]
            exact (hsort x (List.mem_cons_self x t)).le
          · exfalso
            have hlt2 : |q.2 - f| < |acc.2 - f| := by rw [htie]; exact h2
            rw [heqx] at hlt2
            exact hcmp hlt2
        · exact ih acc hsort_t hpair_t q (Or.inr hqt) htie

theorem mem_notesList {r : String × ℝ} :
    r ∈ notesList ↔ ∃ m, m < 96 ∧ r = noteEntry m := by
  rw [notesList_eq_map]
  simp only [List.mem_map, List.mem_range]
  constructor
  · rintro ⟨m, hm, rfl⟩; exact ⟨m, hm, rfl⟩
  · rintro ⟨m, hm, rfl⟩; exact ⟨m, hm, rfl⟩

theorem notesList_tail_sorted :
    ((List.range' 1 95).map noteEntry).Pairwise (fun a b : String × ℝ => a.2 < b.2) :=
  List.Pairwise.map noteEntry (fun a b h => noteEntry_snd_mono h) (List.pairwise_lt_range' 1 95)

theorem notesList_head_lt :
    ∀ q ∈ (List.range' 1 95).map noteEntry, (noteEntry 0).2 < q.2 := by
  intro q hq
  obtain ⟨m, hm, rfl⟩ := List.mem_map.mp hq
  have : 1 ≤ m := (List.mem_range'_1.mp hm).1
  exact noteEntry_snd_mono (by omega)

theorem find_closest_eq_tail_fold (f : ℝ) :
    find_closest_note f = ((List.range' 1 95).map noteEntry).foldl (minElemStep f) (noteEntry 0) := by
  rw [find_closest_note, notesList_cons]
  rw [show (noteEntry 0 :: (List.range' 1 95).map noteEntry).headD ("", 0) = noteEntry 0 from rfl]
  rw [List.foldl_cons, minElemStep_of_not f _ _ (lt_irrefl _)]

/-- C4: for every positive input frequency `find_closest_note` returns a
candidate of the octave-0-to-7 table minimising the absolute frequency
distance, on an exact tie it deterministically prefers the lower note, and
the table covers all 96 notes of octaves 0..7. -/
theorem find_closest_note_spec (f : ℝ) (hf : 0 < f) :
    find_closest_note f ∈ notesList ∧
    (∀ q ∈ notesList, |(find_closest_note f).2 - f| ≤ |q.2 - f|) ∧
    (∀ q ∈ notesList, |q.2 - f| = |(find_closest_note f).2 - f| →
      (find_closest_note f).2 ≤ q.2) ∧
    (∀ octave, octave < 8 → ∀ note, note < 12 →
      (note_names.getD note ("") ++ toString octave, note_freq note octave) ∈ notesList) := by
  rw [find_closest_eq_tail_fold]
  obtain ⟨hmem, hmono, hmin⟩ := minFold_inv f ((List.range' 1 95).map noteEntry) (noteEntry 0)
  refine ⟨?_, ?_, ?_, ?_⟩
  · rw [notesList_cons]
    rcases hmem with heq | ⟨h1, _⟩
    · rw [heq]; exact List.mem_cons_self _ _
    · exact List.mem_cons_of_mem _ h1
  · intro q hq
    rw [notesList_cons] at hq
    rcases List.mem_cons.mp hq with rfl | hqt
    · exact hmono
    · exact hmin q hqt
  · intro q hq htie
    rw [notesList_cons] at hq
    exact minFold_tie f _ (noteEntry 0) notesList_head_lt notesList_tail_sorted q
      (by rcases List.mem_cons.mp hq with rfl | h; exact Or.inl rfl; exact Or.inr h) htie
  · intro octave hoct note hnote
    have hidx : octave * 12 + note < 96 := by omega
    have hentry : noteEntry (octave * 12 + note) =
        (note_names.getD note ("") ++ toString octave, note_freq note octave) := by
      have hmod : (octave * 12 + note) % 12 = note := by omega
      have hdiv : (octave * 12 + note) / 12 = octave := by omega
      rw [noteEntry, hmod, hdiv]
    rw [← hentry, notesList_eq_map]
    exact List.mem_map.mpr ⟨octave * 12 + note, List.mem_range.mpr hidx, rfl⟩

/-- The cents computation of `GuitarTuner::process_audio` (extend.cpp line
240): `cents = 1200 * log2(freq / target)`. -/
noncomputable def cents (freq target : ℝ) : ℝ := 1200 * Real.logb 2 (freq / target)

/-- C4 witness at `f = 440`. -/
theorem find_closest_note_spec_witness :
    (0 : ℝ) < 440 ∧
    (find_closest_note 440 ∈ notesList ∧
    (∀ q ∈ notesList, |(find_closest_note 440).2 - 440| ≤ |q.2 - 440|) ∧
    (∀ q ∈ notesList, |q.2 - 440| = |(find_closest_note 440).2 - 440| →
      (find_closest_note 440).2 ≤ q.2) ∧
    (∀ octave, octave < 8 → ∀ note, note < 12 →
      (note_names.getD note ("") ++ toString octave, note_freq note octave) ∈ notesList)) :=
  ⟨by norm_num, find_closest_note_spec 440 (by norm_num)⟩

/-! ### The per-callback cycle (C10) -/

/-- Constant `GuitarTuner::BUFFER_SIZE` (extend.cpp line 211). -/
def BUFFER_SIZE : ℕ := 2048

/-- The record handed to `TunerDisplay::update` (extend.cpp line 241).
`Option ℝ` fields model doubles that may be NaN. -/
structure DisplayRecord where
  frequency : Option ℝ
  noteName : String
  target : ℝ
  cents_off : Option ℝ

/-- The display arguments computed from the analyze result `*freq`
(extend.cpp lines 239-241); a NaN frequency (`none`) propagates. -/
noncomputable def displayFor (freq : Option ℝ) : DisplayRecord :=
  match freq with
  | some f => ⟨some f, (find_closest_note f).1, (find_closest_note f).2,
      some (cents f (find_closest_note f).2)⟩
  | none => ⟨none, "", 0, none⟩

/-- Buffer `AudioBuffer buffer(BUFFER_SIZE)` filled by `from_float_buffer`
(extend.cpp lines 54-65, 229-230): a 2048-element zero-initialised vector
whose first `input.size()` entries are overwritten.  (An input longer than
`BUFFER_SIZE` would overflow the vector in C++; PortAudio delivers exactly
`BUFFER_SIZE` frames per callback, and the model truncates.) -/
noncomputable def from_float_buffer (input : List ℝ) : List ℝ :=
  (input ++ List.replicate (BUFFER_SIZE - input.length) 0).take BUFFER_SIZE

theorem from_float_buffer_length (input : List ℝ) :
    (from_float_buffer input).length = BUFFER_SIZE := by
  rw [from_float_buffer, List.length_take, List.length_append, List.length_replicate]
  omega

/-- Method `GuitarTuner::process_audio` (extend.cpp lines 228-246): build the
2048-sample buffer, gate on the RMS of the input span, and on success of
`fft.analyze` update the display. -/
noncomputable def process_audio (buf : ℕ → ℝ) (input : List ℝ) :
    (ℕ → ℝ) × Option DisplayRecord :=
  if MIN_AMPLITUDE < rmsOf input then
    match analyze buf (from_float_buffer input) with
    | (buf2, Except.ok freq) => (buf2, some (displayFor freq))
    | (buf2, Except.error _) => (buf2, none)
  else (buf, none)

/-- C10: `analyze` rejects every span whose length differs from its fixed
window size 4096 with the error "Invalid audio buffer size"; since
`process_audio` always passes a `BUFFER_SIZE = 2048`-sample buffer, every
per-cycle analysis fails and the display-update branch is never reached. -/
theorem analyze_size_mismatch_kills_display :
    (∀ (buf : ℕ → ℝ) (audio : List ℝ), audio.length ≠ window_size →
      (analyze buf audio).2 = Except.error ("Invalid audio buffer size")) ∧
    (∀ (buf : ℕ → ℝ) (input : List ℝ), (process_audio buf input).2 = none) := by
  have herr : ∀ (buf : ℕ → ℝ) (audio : List ℝ), audio.length ≠ window_size →
      analyze buf audio = (buf, Except.error ("Invalid audio buffer size")) := by
    intro buf audio h
    rw [analyze, if_pos h]
  refine ⟨fun buf audio h => by rw [herr buf audio h], ?_⟩
  intro buf input
  rw [process_audio]
  by_cases hgate : MIN_AMPLITUDE < rmsOf input
  · rw [if_pos hgate]
    have hlen : (from_float_buffer input).length ≠ window_size := by
      rw [from_float_buffer_length]
      norm_num [BUFFER_SIZE, window_size]
    rw [herr buf _ hlen]
  · rw [if_neg hgate]

/-- C10 witness: the empty span is rejected, and a full-scale constant
callback block still produces no display update. -/
theorem analyze_size_mismatch_kills_display_witness :
    (([] : List ℝ).length ≠ window_size ∧
      (analyze hann ([] : List ℝ)).2 = Except.error ("Invalid audio buffer size")) ∧
    (process_audio hann (List.replicate BUFFER_SIZE 1)).2 = none :=
  ⟨⟨by norm_num [window_size],
      analyze_size_mismatch_kills_display.1 hann [] (by norm_num [window_size])⟩,
    analyze_size_mismatch_kills_display.2 hann (List.replicate BUFFER_SIZE 1)⟩

/-! ### C6: the refiner formula, code vs. claim -/

theorem mag_re (x : ℝ) : mag (x, 0) = |x| := by
  rw [mag]
  norm_num [Real.sqrt_sq_eq_abs]

/-- The claim's max-bin search "the index in `1..N/2-1` with the largest
magnitude": indices `1..2047`, one more than the code's loop. -/
noncomputable def specMaxScan (out : ℕ → Bin) : ℕ × ℝ :=
  (List.range' 1 (window_size / 2 - 1)).foldl (maxStep out) (0, 0)

/-- Modelled from the claim's wording (C6), for comparison with the code:
locate `max_bin` over `1..N/2-1`, take the *log-magnitudes* `alpha, beta,
gamma` of bins `max_bin-1, max_bin, max_bin+1`, set
`delta = 0.5*(alpha-gamma)/(alpha-2*beta+gamma)`, `peak_bin = max_bin+delta`,
and convert with `peak_bin * sample_rate / window_length`. -/
noncomputable def refineSpecified (out : ℕ → Bin) : ℝ :=
  let mb := (specMaxScan out).1
  let a := Real.log (mag (out (mb - 1)))
  let b := Real.log (mag (out mb))
  let c := Real.log (mag (out (mb + 1)))
  ((mb : ℝ) + 0.5 * (a - c) / (a - 2 * b + c)) * sampleRate / (window_size : ℝ)

theorem specMaxScan_eq (out : ℕ → Bin) :
    specMaxScan out = maxStep out (maxScan out) 2047 := by
  rw [specMaxScan, maxScan]
  rw [show window_size / 2 - 1 = 2047 by norm_num [window_size]]
  rw [show window_size / 2 - 2 = 2046 by norm_num [window_size]]
  rw [show (2047 : ℕ) = 2046 + 1 from rfl, List.range'_1_concat, List.foldl_append]
  rfl

/-- Spectrum distinguishing log-magnitude from log-real-part: bin 4 is
`(1, sqrt 3)` (magnitude 2, real part 1), bin 5 is the peak `(4, 0)`. -/
noncomputable def spectrumA : ℕ → Bin := fun i =>
  if i = 4 then (1, Real.sqrt 3) else if i = 5 then (4, 0) else (1, 0)

/-- Spectrum distinguishing the claimed search range `1..N/2-1` from the
code's `1..N/2-2`: the largest magnitude sits at bin `2047 = N/2-1`, which
the code's loop never inspects. -/
noncomputable def spectrumB : ℕ → Bin := fun i =>
  if i = 5 then (4, 0) else if i = 2047 then (16, 0) else (1, 0)

theorem mag_A4 : mag (spectrumA 4) = 2 := by
  rw [show spectrumA 4 = (1, Real.sqrt 3) from rfl, mag]
  have h3 : Real.sqrt 3 ^ 2 = 3 := Real.sq_sqrt (by norm_num)
  rw [show ((1 : ℝ), Real.sqrt 3).1 ^ 2 + ((1 : ℝ), Real.sqrt 3).2 ^ 2
      = 1 + Real.sqrt 3 ^ 2 by norm_num]
  rw [h3]
  rw [show (1 : ℝ) + 3 = 2 ^ 2 by norm_num]
  exact Real.sqrt_sq (by norm_num)

theorem fold6_A :
    List.foldl (maxStep spectrumA) ((0 : ℕ), (0 : ℝ)) (List.range' 1 6) = (5, 4) := by
  have e1 : mag (spectrumA 1) = 1 := by rw [show spectrumA 1 = (1, 0) from rfl, mag_one_zero]
  have e2 : mag (spectrumA 2) = 1 := by rw [show spectrumA 2 = (1, 0) from rfl, mag_one_zero]
  have e3 : mag (spectrumA 3) = 1 := by rw [show spectrumA 3 = (1, 0) from rfl, mag_one_zero]
  have e5 : mag (spectrumA 5) = 4 := by
    rw [show spectrumA 5 = (4, 0) from rfl, mag_re]; norm_num
  have e6 : mag (spectrumA 6) = 1 := by rw [show spectrumA 6 = (1, 0) from rfl, mag_one_zero]
  show List.foldl (maxStep spectrumA) ((0 : ℕ), (0 : ℝ)) [1, 2, 3, 4, 5, 6] = (5, 4)
  simp only [List.foldl_cons, List.foldl_nil]
  rw [maxStep_of_lt spectrumA ((0 : ℕ), (0 : ℝ)) 1 (by rw [e1]; norm_num), e1]
  rw [maxStep_of_le spectrumA (1, 1) 2 (by rw [e2])]
  rw [maxStep_of_le spectrumA (1, 1) 3 (by rw [e3])]
  rw [maxStep_of_lt spectrumA (1, 1) 4 (by rw [mag_A4]; norm_num), mag_A4]
  rw [maxStep_of_lt spectrumA (4, 2) 5 (by rw [e5]; norm_num), e5]
  rw [maxStep_of_le spectrumA (5, 4) 6 (by rw [e6]; norm_num)]

theorem maxScan_A : maxScan spectrumA = (5, 4) := by
  have hsplit : List.range' 1 2046 = List.range' 1 6 ++ List.range' 7 2040 := by
    rw [List.range'_append_1]
  rw [maxScan, show window_size / 2 - 2 = 2046 by norm_num [window_size], hsplit,
    List.foldl_append, fold6_A]
  apply maxFold_const
  intro i hi
  rw [List.mem_range'_1] at hi
  have h4 : i ≠ 4 := by omega
  have h5 : i ≠ 5 := by omega
  have : spectrumA i = (1, 0) := by simp [spectrumA, h4, h5]
  rw [this, mag_one_zero]
  norm_num

theorem specScan_A : specMaxScan spectrumA = (5, 4) := by
  rw [specMaxScan_eq, maxScan_A]
  apply maxStep_of_le
  have : spectrumA 2047 = (1, 0) := by simp [spectrumA]
  rw [this, mag_one_zero]
  norm_num

theorem fold6_B :
    List.foldl (maxStep spectrumB) ((0 : ℕ), (0 : ℝ)) (List.range' 1 6) = (5, 4) := by
  have e1 : mag (spectrumB 1) = 1 := by rw [show spectrumB 1 = (1, 0) from rfl, mag_one_zero]
  have e2 : mag (spectrumB 2) = 1 := by rw [show spectrumB 2 = (1, 0) from rfl, mag_one_zero]
  have e3 : mag (spectrumB 3) = 1 := by rw [show spectrumB 3 = (1, 0) from rfl, mag_one_zero]
  have e4 : mag (spectrumB 4) = 1 := by rw [show spectrumB 4 = (1, 0) from rfl, mag_one_zero]
  have e5 : mag (spectrumB 5) = 4 := by
    rw [show spectrumB 5 = (4, 0) from rfl, mag_re]; norm_num
  have e6 : mag (spectrumB 6) = 1 := by rw [show spectrumB 6 = (1, 0) from rfl, mag_one_zero]
  show List.foldl (maxStep spectrumB) ((0 : ℕ), (0 : ℝ)) [1, 2, 3, 4, 5, 6] = (5, 4)
  simp only [List.foldl_cons, List.foldl_nil]
  rw [maxStep_of_lt spectrumB ((0 : ℕ), (0 : ℝ)) 1 (by rw [e1]; norm_num), e1]
  rw [maxStep_of_le spectrumB (1, 1) 2 (by rw [e2])]
  rw [maxStep_of_le spectrumB (1, 1) 3 (by rw [e3])]
  rw [maxStep_of_le spectrumB (1, 1) 4 (by rw [e4])]
  rw [maxStep_of_lt spectrumB (1, 1) 5 (by rw [e5]; norm_num), e5]
  rw [maxStep_of_le spectrumB (5, 4) 6 (by rw [e6]; norm_num)]

theorem maxScan_B : maxScan spectrumB = (5, 4) := by
  have hsplit : List.range' 1 2046 = List.range' 1 6 ++ List.range' 7 2040 := by
    rw [List.range'_append_1]
  rw [maxScan, show window_size / 2 - 2 = 2046 by norm_num [window_size], hsplit,
    List.foldl_append, fold6_B]
  apply maxFold_const
  intro i hi
  rw [List.mem_range'_1] at hi
  have h5 : i ≠ 5 := by omega
  have h7 : i ≠ 2047 := by omega
  have : spectrumB i = (1, 0) := by simp [spectrumB, h5, h7]
  rw [this, mag_one_zero]
  norm_num

theorem specScan_B : specMaxScan spectrumB = (2047, 16) := by
  rw [specMaxScan_eq, maxScan_B]
  have h16 : mag (spectrumB 2047) = 16 := by
    rw [show spectrumB 2047 = (16, 0) from rfl, mag_re]; norm_num
  rw [maxStep_of_lt spectrumB ((5 : ℕ), (4 : ℝ)) 2047 (by rw [h16]; norm_num), h16]

/-- Evaluation rule for the code's refiner in the non-degenerate case. -/
theorem refineFreq_eval (out : ℕ → Bin) (mb : ℕ) (hscan : (maxScan out).1 = mb)
    (hmb : mb ≠ 0) (x y z : ℝ) (hx : 0 < x) (hy : 0 < y) (hz : 0 < z)
    (hx2 : |(out (mb - 1)).1| = x) (hy2 : |(out mb).1| = y) (hz2 : |(out (mb + 1)).1| = z)
    (hden : Real.log x - 2 * Real.log y + Real.log z ≠ 0) :
    refineFreq out = some (((mb : ℝ) + 0.5 * (Real.log x - Real.log z) /
      (Real.log x - 2 * Real.log y + Real.log z)) * sampleRate / (window_size : ℝ)) := by
  rw [refineFreq]
  simp only [hscan]
  rw [if_neg hmb, hx2, hy2, hz2]
  rw [safeLog, if_pos hx]
  rw [safeLog, if_pos hy]
  rw [safeLog, if_pos hz]
  simp only [if_neg hden]

theorem log_four_ne : Real.log 1 - 2 * Real.log 4 + Real.log 1 ≠ 0 := by
  rw [Real.log_one]
  have h4 := Real.log_pos (by norm_num : (1 : ℝ) < 4)
  intro hc
  nlinarith

theorem refineFreq_A : refineFreq spectrumA = some (5 * sampleRate / (window_size : ℝ)) := by
  have h := refineFreq_eval spectrumA 5 (by rw [maxScan_A]) (by norm_num) 1 4 1
    (by norm_num) (by norm_num) (by norm_num)
    (by rw [show spectrumA (5 - 1) = (1, Real.sqrt 3) from rfl]; norm_num)
    (by rw [show spectrumA 5 = (4, 0) from rfl]; norm_num)
    (by rw [show spectrumA (5 + 1) = (1, 0) from rfl]; norm_num)
    log_four_ne
  rw [h, Real.log_one]
  norm_num

theorem refineFreq_B : refineFreq spectrumB = some (5 * sampleRate / (window_size : ℝ)) := by
  have h := refineFreq_eval spectrumB 5 (by rw [maxScan_B]) (by norm_num) 1 4 1
    (by norm_num) (by norm_num) (by norm_num)
    (by rw [show spectrumB (5 - 1) = (1, 0) from rfl]; norm_num)
    (by rw [show spectrumB 5 = (4, 0) from rfl]; norm_num)
    (by rw [show spectrumB (5 + 1) = (1, 0) from rfl]; norm_num)
    log_four_ne
  rw [h, Real.log_one]
  norm_num

theorem refineSpecified_A :
    refineSpecified spectrumA = (5 - 1 / 6) * sampleRate / (window_size : ℝ) := by
  rw [refineSpecified, specScan_A]
  simp only
  have e5 : mag (spectrumA 5) = 4 := by
    rw [show spectrumA 5 = (4, 0) from rfl, mag_re]; norm_num
  have e6 : mag (spectrumA (5 + 1)) = 1 := by
    rw [show spectrumA (5 + 1) = (1, 0) from rfl, mag_one_zero]
  have e4 : mag (spectrumA (5 - 1)) = 2 := by
    rw [show (5 - 1 : ℕ) = 4 from rfl]; exact mag_A4
  rw [e4, e5, e6, Real.log_one]
  have hlog4 : Real.log 4 = 2 * Real.log 2 := by
    rw [show (4 : ℝ) = 2 ^ 2 by norm_num, Real.log_pow]
    push_cast
    ring
  have h2 : Real.log 2 ≠ 0 := ne_of_gt (Real.log_pos one_lt_two)
  rw [hlog4]
  have hval : 0.5 * (Real.log 2 - 0) / (Real.log 2 - 2 * (2 * Real.log 2) + 0) = -(1 / 6) := by
    rw [sub_zero, add_zero]
    rw [show Real.log 2 - 2 * (2 * Real.log 2) = (-3) * Real.log 2 by ring]
    field_simp
    ring
  rw [hval]
  norm_num

theorem refineSpecified_B :
    refineSpecified spectrumB = 2047 * sampleRate / (window_size : ℝ) := by
  rw [refineSpecified, specScan_B]
  simp only
  have e6 : mag (spectrumB (2047 - 1)) = 1 := by
    rw [show spectrumB (2047 - 1) = (1, 0) from rfl, mag_one_zero]
  have e8 : mag (spectrumB (2047 + 1)) = 1 := by
    rw [show spectrumB (2047 + 1) = (1, 0) from rfl, mag_one_zero]
  rw [e6, e8, Real.log_one]
  norm_num

/-- C6 counterexample: the code's refinement differs from the claimed
formula, both because the code takes logs of the absolute real parts rather
than of the magnitudes (`spectrumA`: `5` vs `5 - 1/6` bins) and because the
code's search stops at bin `N/2-2` while the claim includes `N/2-1`
(`spectrumB`: `5` vs `2047` bins). -/
theorem refiner_formula_counterexample :
    refineFreq spectrumA ≠ some (refineSpecified spectrumA) ∧
    refineFreq spectrumB ≠ some (refineSpecified spectrumB) := by
  constructor
  · rw [refineFreq_A, refineSpecified_A]
    intro h
    have h2 := Option.some_injective ℝ h
    have hsw : sampleRate / (window_size : ℝ) > 0 := by
      norm_num [sampleRate, window_size]
    rw [mul_div_assoc, mul_div_assoc] at h2
    have := mul_right_cancel₀ (ne_of_gt hsw) h2
    norm_num at this
  · rw [refineFreq_B, refineSpecified_B]
    intro h
    have h2 := Option.some_injective ℝ h
    have hsw : sampleRate / (window_size : ℝ) > 0 := by
      norm_num [sampleRate, window_size]
    rw [mul_div_assoc, mul_div_assoc] at h2
    have := mul_right_cancel₀ (ne_of_gt hsw) h2
    norm_num at this

/-- C6 amended: the code's `max_bin` is a maximiser of the magnitude over
bins `1..N/2-2` only (first strict maximum, `(0,0)` when no bin beats the
initial zero), and the refinement applies the parabolic formula to the logs
of the absolute *real parts* of bins `max_bin-1, max_bin, max_bin+1`. -/
theorem refiner_amended (out : ℕ → Bin) :
    (∀ i, 1 ≤ i → i ≤ 2046 → mag (out i) ≤ (maxScan out).2) ∧
    (maxScan out = (0, 0) ∨
      (1 ≤ (maxScan out).1 ∧ (maxScan out).1 ≤ 2046 ∧
        (maxScan out).2 = mag (out (maxScan out).1))) ∧
    (∀ x y z : ℝ, (maxScan out).1 ≠ 0 → 0 < x → 0 < y → 0 < z →
      |(out ((maxScan out).1 - 1)).1| = x → |(out (maxScan out).1).1| = y →
      |(out ((maxScan out).1 + 1)).1| = z →
      Real.log x - 2 * Real.log y + Real.log z ≠ 0 →
      refineFreq out = some ((((maxScan out).1 : ℝ) +
        0.5 * (Real.log x - Real.log z) / (Real.log x - 2 * Real.log y + Real.log z)) *
        sampleRate / (window_size : ℝ))) := by
  have hdef : maxScan out = (List.range' 1 2046).foldl (maxStep out) (0, 0) := by
    rw [maxScan, show window_size / 2 - 2 = 2046 by norm_num [window_size]]
  obtain ⟨hmem, _, hmax⟩ := maxFold_inv out (List.range' 1 2046) (0, 0)
  refine ⟨?_, ?_, ?_⟩
  · intro i h1 h2
    rw [hdef]
    exact hmax i (List.mem_range'_1.mpr ⟨h1, by omega⟩)
  · rcases hmem with heq | ⟨hin, hsnd, _⟩
    · exact Or.inl (by rw [hdef, heq])
    · right
      rw [List.mem_range'_1] at hin
      exact ⟨by rw [hdef]; omega, by rw [hdef]; omega, by rw [hdef] at *; exact hsnd⟩
  · intro x y z hmb hx hy hz hx2 hy2 hz2 hden
    exact refineFreq_eval out (maxScan out).1 rfl hmb x y z hx hy hz hx2 hy2 hz2 hden

/-- C6 amended witness at `spectrumA`. -/
theorem refiner_amended_witness :
    ((maxScan spectrumA).1 ≠ 0 ∧ (0 : ℝ) < 1 ∧ (0 : ℝ) < 4 ∧
      |(spectrumA ((maxScan spectrumA).1 - 1)).1| = 1 ∧
      |(spectrumA (maxScan spectrumA).1).1| = 4 ∧
      |(spectrumA ((maxScan spectrumA).1 + 1)).1| = 1 ∧
      Real.log 1 - 2 * Real.log 4 + Real.log 1 ≠ 0) ∧
    refineFreq spectrumA = some ((((maxScan spectrumA).1 : ℝ) +
      0.5 * (Real.log 1 - Real.log 1) / (Real.log 1 - 2 * Real.log 4 + Real.log 1)) *
      sampleRate / (window_size : ℝ)) := by
  have hmb : (maxScan spectrumA).1 ≠ 0 := by rw [maxScan_A]; norm_num
  have ha : |(spectrumA ((maxScan spectrumA).1 - 1)).1| = 1 := by
    rw [maxScan_A, show spectrumA ((5, (4 : ℝ)).1 - 1) = (1, Real.sqrt 3) from rfl]
    norm_num
  have hb : |(spectrumA (maxScan spectrumA).1).1| = 4 := by
    rw [maxScan_A, show spectrumA (5, (4 : ℝ)).1 = (4, 0) from rfl]
    norm_num
  have hc : |(spectrumA ((maxScan spectrumA).1 + 1)).1| = 1 := by
    rw [maxScan_A, show spectrumA ((5, (4 : ℝ)).1 + 1) = (1, 0) from rfl]
    norm_num
  exact ⟨⟨hmb, by norm_num, by norm_num, ha, hb, hc, log_four_ne⟩,
    (refiner_amended spectrumA).2.2 1 4 1 hmb (by norm_num) (by norm_num) (by norm_num)
      ha hb hc log_four_ne⟩

/-! ### C8: the Sample Window Buffer (modelled from the spec) -/

/-- Modelled from the spec: the repository contains no Sample Window Buffer
component (both variants feed each callback block straight to analysis), so
§4.1 is modelled from the spec's words.  `emitW` performs the emission loop
on the accumulator's contents: whenever at least `N` samples are available,
emit one window of exactly `N` samples and continue on the rest. -/
def emitW {α : Type} (N : ℕ) (l : List α) : List (List α) × List α :=
  if h : 0 < N ∧ N ≤ l.length then
    let r := emitW N (l.drop N)
    (l.take N :: r.1, r.2)
  else ([], l)
termination_by l.length
decreasing_by
  simp only [List.length_drop]
  omega

/-- Modelled from the spec: `push` appends the incoming block to the
residual accumulator and emits all complete windows; the first component is
the new residue, the second the emitted windows in order. -/
def push {α : Type} (N : ℕ) (resid chunk : List α) : List α × List (List α) :=
  ((emitW N (resid ++ chunk)).2, (emitW N (resid ++ chunk)).1)

/-- Modelled from the spec: feed a sequence of blocks through `push`,
starting from an empty accumulator and collecting all emitted windows. -/
def pushAll {α : Type} (N : ℕ) (chunks : List (List α)) : List α × List (List α) :=
  chunks.foldl (fun st c => ((push N st.1 c).1, st.2 ++ (push N st.1 c).2)) ([], [])

theorem emitW_spec {α : Type} (N : ℕ) (hN : 0 < N) :
    ∀ (n : ℕ) (l : List α), l.length ≤ n →
      (emitW N l).1.flatten ++ (emitW N l).2 = l ∧
      (∀ w ∈ (emitW N l).1, w.length = N) ∧
      (emitW N l).2.length < N := by
  intro n
  induction n with
  | zero =>
    intro l hl
    have hnil : l = [] := List.length_eq_zero.mp (Nat.le_zero.mp hl)
    subst hnil
    rw [emitW, dif_neg (by simp; omega)]
    exact ⟨rfl, by simp, by simpa using hN⟩
  | succ n ih =>
    intro l hl
    rw [emitW]
    by_cases h : 0 < N ∧ N ≤ l.length
    · rw [dif_pos h]
      have hdrop : (l.drop N).length ≤ n := by
        rw [List.length_drop]
        omega
      obtain ⟨ihf, ihl, ihr⟩ := ih (l.drop N) hdrop
      refine ⟨?_, ?_, ihr⟩
      · simp only [List.flatten_cons, List.append_assoc]
        rw [ihf, List.take_append_drop]
      · intro w hw
        rcases List.mem_cons.mp hw with heq | hmem
        · rw [heq, List.length_take]
          omega
        · exact ihl w hmem
    · rw [dif_neg h]
      refine ⟨rfl, by simp, ?_⟩
      push_neg at h
      exact h hN

theorem pushAll_inv {α : Type} (N : ℕ) (hN : 0 < N) :
    ∀ (chunks : List (List α)) (st : List α × List (List α)),
      (∀ w ∈ st.2, w.length = N) → st.1.length < N →
      ((chunks.foldl (fun st c => ((push N st.1 c).1, st.2 ++ (push N st.1 c).2)) st).2.flatten ++
        (chunks.foldl (fun st c => ((push N st.1 c).1, st.2 ++ (push N st.1 c).2)) st).1 =
        st.2.flatten ++ st.1 ++ chunks.flatten) ∧
      (∀ w ∈ (chunks.foldl (fun st c => ((push N st.1 c).1, st.2 ++ (push N st.1 c).2)) st).2,
        w.length = N) ∧
      (chunks.foldl (fun st c => ((push N st.1 c).1, st.2 ++ (push N st.1 c).2)) st).1.length < N := by
  intro chunks
  induction chunks with
  | nil =>
    intro st hlen hres
    refine ⟨?_, hlen, hres⟩
    simp
  | cons c t ih =>
    intro st hlen hres
    rw [List.foldl_cons]
    obtain ⟨ef, el, er⟩ := emitW_spec N hN (st.1 ++ c).length (st.1 ++ c) (le_refl _)
    have hst2 : ∀ w ∈ st.2 ++ (push N st.1 c).2, w.length = N := by
      intro w hw
      rcases List.mem_append.mp hw with h1 | h2
      · exact hlen w h1
      · exact el w h2
    have hst1 : (push N st.1 c).1.length < N := er
    obtain ⟨f1, f2, f3⟩ := ih ((push N st.1 c).1, st.2 ++ (push N st.1 c).2) hst2 hst1
    refine ⟨?_, f2, f3⟩
    rw [f1]
    simp only [List.flatten_append, List.flatten_cons, push]
    rw [List.append_assoc (st.2.flatten), ef]
    simp [List.append_assoc]

theorem flatten_length_allN {α : Type} (N : ℕ) :
    ∀ ws : List (List α), (∀ w ∈ ws, w.length = N) → ws.flatten.length = ws.length * N := by
  intro ws
  induction ws with
  | nil => intro _; simp
  | cons w t ih =>
    intro h
    rw [List.flatten_cons, List.length_append, ih (fun v hv => h v (List.mem_cons_of_mem w hv)),
      h w (List.mem_cons_self w t), List.length_cons]
    ring

/-- C8 (modelled from the spec): pushing blocks whose total length is
exactly `k * N` through the Sample Window Buffer emits exactly `k` windows,
each of length exactly `N`, whose concatenation is the input stream in its
original order, with an empty residue — regardless of how the input is
chunked. -/
theorem buffer_accumulation {α : Type} (N k : ℕ) (chunks : List (List α)) (hN : 0 < N)
    (htot : chunks.flatten.length = k * N) :
    (pushAll N chunks).2.length = k ∧
    (∀ w ∈ (pushAll N chunks).2, w.length = N) ∧
    (pushAll N chunks).2.flatten = chunks.flatten ∧
    (pushAll N chunks).1 = [] := by
  obtain ⟨f1', f2', f3'⟩ := pushAll_inv N hN chunks ([], []) (by simp) (by simpa using hN)
  have f1 : (pushAll N chunks).2.flatten ++ (pushAll N chunks).1 = chunks.flatten := by
    rw [show chunks.flatten =
      (([] : List (List α)).flatten ++ ([] : List α) ++ chunks.flatten) by simp]
    exact f1'
  have f2 : ∀ w ∈ (pushAll N chunks).2, w.length = N := f2'
  have f3 : (pushAll N chunks).1.length < N := f3'
  have hflat : (pushAll N chunks).2.flatten.length = (pushAll N chunks).2.length * N :=
    flatten_length_allN N _ f2
  have hsum : (pushAll N chunks).2.length * N + (pushAll N chunks).1.length = k * N := by
    have hlen := congrArg List.length f1
    rw [List.length_append, hflat] at hlen
    rw [hlen, htot]
  have hc_le : (pushAll N chunks).2.length ≤ k := by
    have hle : (pushAll N chunks).2.length * N ≤ k * N := by omega
    exact Nat.le_of_mul_le_mul_right hle hN
  have hres0 : (pushAll N chunks).1.length = 0 := by
    rcases Nat.eq_or_lt_of_le hc_le with heq | hlt
    · rw [heq] at hsum
      omega
    · exfalso
      have h3 : (pushAll N chunks).2.length + 1 ≤ k := hlt
      have h4 : ((pushAll N chunks).2.length + 1) * N ≤ k * N := Nat.mul_le_mul_right N h3
      have h5 : ((pushAll N chunks).2.length + 1) * N = (pushAll N chunks).2.length * N + N := by
        ring
      omega
  have hresnil : (pushAll N chunks).1 = [] := List.length_eq_zero.mp hres0
  refine ⟨?_, f2, ?_, hresnil⟩
  · have hmul : (pushAll N chunks).2.length * N = k * N := by omega
    exact Nat.eq_of_mul_eq_mul_right hN hmul
  · rw [hresnil, List.append_nil] at f1
    exact f1

/-- C8 witness: `N = 2`, blocks `[[1], [2,3], [4]]`, `k = 2`. -/
theorem buffer_accumulation_witness :
    ((0 : ℕ) < 2 ∧ ([[1], [2, 3], [4]] : List (List ℕ)).flatten.length = 2 * 2) ∧
    ((pushAll 2 [[1], [2, 3], [4]]).2.length = 2 ∧
      (∀ w ∈ (pushAll 2 ([[1], [2, 3], [4]] : List (List ℕ))).2, w.length = 2) ∧
      (pushAll 2 ([[1], [2, 3], [4]] : List (List ℕ))).2.flatten = [[1], [2, 3], [4]].flatten ∧
      (pushAll 2 ([[1], [2, 3], [4]] : List (List ℕ))).1 = []) :=
  ⟨⟨by norm_num, by rfl⟩, buffer_accumulation 2 2 [[1], [2, 3], [4]] (by norm_num) (by rfl)⟩

/-! ### C5: the cents formula and the c-cents round trip -/

/-- The equal-tempered exponent of table index `k`: `(k - 57) / 12`. -/
noncomputable def noteExp (k : ℕ) : ℝ := (((k : ℤ) - 57 : ℤ) : ℝ) / 12

theorem noteEntry_snd' (k : ℕ) : (noteEntry k).2 = 440 * (2 : ℝ) ^ noteExp k :=
  noteEntry_snd k

theorem noteExp_succ (k : ℕ) : noteExp (k + 1) = noteExp k + 1 / 12 := by
  rw [noteExp, noteExp]
  have h : ((k + 1 : ℕ) : ℤ) = (k : ℤ) + 1 := by push_cast; ring
  rw [h]
  push_cast
  ring

theorem noteExp_pred (k : ℕ) (h : 1 ≤ k) : noteExp (k - 1) = noteExp k - 1 / 12 := by
  rw [noteExp, noteExp]
  have h1 : ((k - 1 : ℕ) : ℤ) = (k : ℤ) - 1 := by omega
  rw [h1]
  push_cast
  ring

/-- Value of `cents` for two table-shaped frequencies is `1200` times the exponent
difference. -/
theorem cents_note_ratio (a b : ℝ) :
    cents (440 * (2 : ℝ) ^ a) (440 * (2 : ℝ) ^ b) = 1200 * (a - b) := by
  rw [cents]
  have hdiv : (440 * (2 : ℝ) ^ a) / (440 * (2 : ℝ) ^ b) = (2 : ℝ) ^ (a - b) := by
    rw [Real.rpow_sub two_pos, mul_div_mul_left _ _ (by norm_num : (440 : ℝ) ≠ 0)]
  rw [hdiv, Real.logb_rpow (by norm_num) (by norm_num)]

theorem note_fac_le (x y : ℝ) (h : x ≤ y) :
    440 * (2 : ℝ) ^ x ≤ 440 * (2 : ℝ) ^ y :=
  mul_le_mul_of_nonneg_left ((Real.rpow_le_rpow_left_iff one_lt_two).mpr h) (by norm_num)

theorem note_fac_lt (x y : ℝ) (h : x < y) :
    440 * (2 : ℝ) ^ x < 440 * (2 : ℝ) ^ y :=
  mul_lt_mul_of_pos_left ((Real.rpow_lt_rpow_left_iff one_lt_two).mpr h) (by norm_num)

theorem dist_cmp_left (x d e : ℝ) (hkey : 2 * (2 : ℝ) ^ d < 1 + (2 : ℝ) ^ e) :
    440 * (2 : ℝ) ^ (x + d) - 440 * (2 : ℝ) ^ x <
    440 * (2 : ℝ) ^ (x + e) - 440 * (2 : ℝ) ^ (x + d) := by
  rw [Real.rpow_add two_pos x d, Real.rpow_add two_pos x e]
  have hx := Real.rpow_pos_of_pos two_pos x
  nlinarith [mul_pos hx (sub_pos.mpr hkey)]

theorem dist_cmp_right (x d e : ℝ) (hkey : (2 : ℝ) ^ e + 1 < 2 * (2 : ℝ) ^ d) :
    440 * (2 : ℝ) ^ (x + e) - 440 * (2 : ℝ) ^ (x + d) <
    440 * (2 : ℝ) ^ (x + d) - 440 * (2 : ℝ) ^ x := by
  rw [Real.rpow_add two_pos x d, Real.rpow_add two_pos x e]
  have hx := Real.rpow_pos_of_pos two_pos x
  nlinarith [mul_pos hx (sub_pos.mpr hkey)]

theorem notes_unique_min_left (f : ℝ) (j : ℕ)
    (hb1 : (noteEntry j).2 ≤ f) (hb2 : f ≤ (noteEntry (j + 1)).2)
    (hcmp : f - (noteEntry j).2 < (noteEntry (j + 1)).2 - f) :
    ∀ r ∈ notesList, r ≠ noteEntry j → |(noteEntry j).2 - f| < |r.2 - f| := by
  intro r hr hne
  obtain ⟨m, hm96, rfl⟩ := mem_notesList.mp hr
  have habsj : |(noteEntry j).2 - f| = f - (noteEntry j).2 := by
    rw [abs_sub_comm, abs_of_nonneg (by linarith)]
  have hmne : m ≠ j := fun h => hne (by rw [h])
  rcases lt_or_gt_of_ne hmne with hmj | hjm
  · have h1 : (noteEntry m).2 < (noteEntry j).2 := noteEntry_snd_mono hmj
    have habsm : |(noteEntry m).2 - f| = f - (noteEntry m).2 := by
      rw [abs_sub_comm, abs_of_nonneg (by linarith)]
    rw [habsj, habsm]
    linarith
  · have h1 : (noteEntry (j + 1)).2 ≤ (noteEntry m).2 := by
      rcases Nat.eq_or_lt_of_le hjm with heq | hlt
      · exact le_of_eq (by rw [← heq])
      · exact (noteEntry_snd_mono hlt).le
    have habsm : |(noteEntry m).2 - f| = (noteEntry m).2 - f := abs_of_nonneg (by linarith)
    rw [habsj, habsm]
    linarith

theorem notes_unique_min_right (f : ℝ) (j : ℕ)
    (hb1 : (noteEntry j).2 ≤ f) (hb2 : f ≤ (noteEntry (j + 1)).2)
    (hcmp : (noteEntry (j + 1)).2 - f < f - (noteEntry j).2) :
    ∀ r ∈ notesList, r ≠ noteEntry (j + 1) → |(noteEntry (j + 1)).2 - f| < |r.2 - f| := by
  intro r hr hne
  obtain ⟨m, hm96, rfl⟩ := mem_notesList.mp hr
  have habsj : |(noteEntry (j + 1)).2 - f| = (noteEntry (j + 1)).2 - f :=
    abs_of_nonneg (by linarith)
  have hmne : m ≠ j + 1 := fun h => hne (by rw [h])
  rcases lt_or_gt_of_ne hmne with hmj | hjm
  · have h1 : (noteEntry m).2 ≤ (noteEntry j).2 := by
      rcases Nat.eq_or_lt_of_le (Nat.lt_succ_iff.mp hmj) with heq | hlt
      · rw [heq]
      · exact (noteEntry_snd_mono hlt).le
    have habsm : |(noteEntry m).2 - f| = f - (noteEntry m).2 := by
      rw [abs_sub_comm, abs_of_nonneg (by linarith)]
    rw [habsj, habsm]
    linarith
  · have h1 : (noteEntry (j + 1)).2 < (noteEntry m).2 := noteEntry_snd_mono hjm
    have habsm : |(noteEntry m).2 - f| = (noteEntry m).2 - f := abs_of_nonneg (by linarith)
    rw [habsj, habsm]
    linarith

theorem find_eq_of_unique (f : ℝ) (p : String × ℝ) (hp : p ∈ notesList)
    (hstrict : ∀ r ∈ notesList, r ≠ p → |p.2 - f| < |r.2 - f|) :
    find_closest_note f = p := by
  rw [find_closest_note]
  apply minFold_first_strict f notesList (notesList.headD ("", 0)) p ?_ hp hstrict
  rw [notesList_cons]
  exact List.mem_cons_self _ _

theorem rpow_npow (y : ℝ) (n : ℕ) : ((2 : ℝ) ^ y) ^ n = (2 : ℝ) ^ (y * (n : ℝ)) := by
  rw [← Real.rpow_natCast ((2 : ℝ) ^ y) n, ← Real.rpow_mul (by norm_num : (0 : ℝ) ≤ 2)]

theorem one_lt_rpow_pos {y : ℝ} (hy : 0 < y) : 1 < (2 : ℝ) ^ y := by
  have h := (Real.rpow_lt_rpow_left_iff (by norm_num : (1 : ℝ) < 2)).mpr hy
  rwa [Real.rpow_zero] at h

theorem key_24 : 2 * (2 : ℝ) ^ ((1 : ℝ) / 24) < 1 + (2 : ℝ) ^ ((1 : ℝ) / 12) := by
  have hw1 : 1 < (2 : ℝ) ^ ((1 : ℝ) / 24) := one_lt_rpow_pos (by norm_num)
  have hw2 : (2 : ℝ) ^ ((1 : ℝ) / 12) = ((2 : ℝ) ^ ((1 : ℝ) / 24)) ^ 2 := by
    rw [rpow_npow]
    norm_num
  rw [hw2]
  have h0 : 0 < ((2 : ℝ) ^ ((1 : ℝ) / 24) - 1) ^ 2 := pow_pos (by linarith) 2
  nlinarith

theorem key_120 : 2 * (2 : ℝ) ^ ((1 : ℝ) / 120) < 1 + (2 : ℝ) ^ ((1 : ℝ) / 12) := by
  have hs1 : 1 < (2 : ℝ) ^ ((1 : ℝ) / 120) := one_lt_rpow_pos (by norm_num)
  have hs10 : (2 : ℝ) ^ ((1 : ℝ) / 12) = ((2 : ℝ) ^ ((1 : ℝ) / 120)) ^ 10 := by
    rw [rpow_npow]
    norm_num
  rw [hs10]
  have h2 : ((2 : ℝ) ^ ((1 : ℝ) / 120)) ^ 2 ≤ ((2 : ℝ) ^ ((1 : ℝ) / 120)) ^ 10 :=
    pow_le_pow_right₀ hs1.le (by norm_num)
  have h0 : 0 < ((2 : ℝ) ^ ((1 : ℝ) / 120) - 1) ^ 2 := pow_pos (by linarith) 2
  nlinarith

theorem key_m10 : (2 : ℝ) ^ ((1 : ℝ) / 12) + 1 < 2 * (2 : ℝ) ^ ((3 : ℝ) / 40) := by
  have ht10 : (2 : ℝ) ^ ((1 : ℝ) / 12) < 1.06 := by
    apply lt_of_pow_lt_pow_left₀ 12 (by norm_num : (0 : ℝ) ≤ 1.06)
    rw [rpow_npow]
    rw [show (1 : ℝ) / 12 * ((12 : ℕ) : ℝ) = 1 by norm_num, Real.rpow_one]
    norm_num
  have ht9 : (1.053 : ℝ) < (2 : ℝ) ^ ((3 : ℝ) / 40) := by
    apply lt_of_pow_lt_pow_left₀ 40 (Real.rpow_nonneg (by norm_num) _)
    rw [rpow_npow]
    rw [show (3 : ℝ) / 40 * ((40 : ℕ) : ℝ) = 3 by norm_num]
    rw [show (2 : ℝ) ^ (3 : ℝ) = 8 by
      rw [show (3 : ℝ) = ((3 : ℕ) : ℝ) by norm_num, Real.rpow_natCast]
      norm_num]
    norm_num
  linarith

/-- The cents offset the tuner reports for the frequency
`target * 2^(c/1200)` around table note `k`. -/
noncomputable def mappedCents (k : ℕ) (c : ℝ) : ℝ :=
  cents ((noteEntry k).2 * (2 : ℝ) ^ (c / 1200))
    (find_closest_note ((noteEntry k).2 * (2 : ℝ) ^ (c / 1200))).2

theorem mapped_at_0 (k : ℕ) (hk2 : k ≤ 94) :
    find_closest_note ((noteEntry k).2 * (2 : ℝ) ^ ((0 : ℝ) / 1200)) = noteEntry k ∧
    mappedCents k 0 = 0 := by
  have hfx : (noteEntry k).2 * (2 : ℝ) ^ ((0 : ℝ) / 1200) = 440 * (2 : ℝ) ^ noteExp k := by
    rw [show (0 : ℝ) / 1200 = 0 by norm_num, Real.rpow_zero, mul_one, noteEntry_snd']
  have hsucc : (noteEntry (k + 1)).2 = 440 * (2 : ℝ) ^ (noteExp k + 1 / 12) := by
    rw [noteEntry_snd', noteExp_succ]
  have hself : (noteEntry k).2 = 440 * (2 : ℝ) ^ noteExp k := noteEntry_snd' k
  have hb1 : (noteEntry k).2 ≤ (noteEntry k).2 * (2 : ℝ) ^ ((0 : ℝ) / 1200) := by
    rw [hfx, hself]
  have hb2 : (noteEntry k).2 * (2 : ℝ) ^ ((0 : ℝ) / 1200) ≤ (noteEntry (k + 1)).2 := by
    rw [hfx, hsucc]
    exact note_fac_le _ _ (by linarith)
  have hcmp : (noteEntry k).2 * (2 : ℝ) ^ ((0 : ℝ) / 1200) - (noteEntry k).2 <
      (noteEntry (k + 1)).2 - (noteEntry k).2 * (2 : ℝ) ^ ((0 : ℝ) / 1200) := by
    rw [hfx, hsucc, hself]
    have := note_fac_lt (noteExp k) (noteExp k + 1 / 12) (by linarith)
    linarith
  have hstrict := notes_unique_min_left _ k hb1 hb2 hcmp
  have hmem : noteEntry k ∈ notesList := mem_notesList.mpr ⟨k, by omega, rfl⟩
  have hfind := find_eq_of_unique _ _ hmem hstrict
  refine ⟨hfind, ?_⟩
  rw [mappedCents, hfind, hfx, hself, cents_note_ratio]
  ring

theorem mapped_at_10 (k : ℕ) (hk2 : k ≤ 94) :
    find_closest_note ((noteEntry k).2 * (2 : ℝ) ^ ((10 : ℝ) / 1200)) = noteEntry k ∧
    mappedCents k 10 = 10 := by
  have hfx : (noteEntry k).2 * (2 : ℝ) ^ ((10 : ℝ) / 1200)
      = 440 * (2 : ℝ) ^ (noteExp k + 1 / 120) := by
    rw [noteEntry_snd', mul_assoc, ← Real.rpow_add two_pos]
    norm_num
  have hsucc : (noteEntry (k + 1)).2 = 440 * (2 : ℝ) ^ (noteExp k + 1 / 12) := by
    rw [noteEntry_snd', noteExp_succ]
  have hself : (noteEntry k).2 = 440 * (2 : ℝ) ^ noteExp k := noteEntry_snd' k
  have hb1 : (noteEntry k).2 ≤ (noteEntry k).2 * (2 : ℝ) ^ ((10 : ℝ) / 1200) := by
    rw [hfx]
    conv_lhs => rw [hself]
    exact note_fac_le _ _ (by linarith)
  have hb2 : (noteEntry k).2 * (2 : ℝ) ^ ((10 : ℝ) / 1200) ≤ (noteEntry (k + 1)).2 := by
    rw [hfx, hsucc]
    exact note_fac_le _ _ (by linarith)
  have hcmp : (noteEntry k).2 * (2 : ℝ) ^ ((10 : ℝ) / 1200) - (noteEntry k).2 <
      (noteEntry (k + 1)).2 - (noteEntry k).2 * (2 : ℝ) ^ ((10 : ℝ) / 1200) := by
    rw [hfx, hsucc, hself]
    exact dist_cmp_left (noteExp k) (1 / 120) (1 / 12) key_120
  have hstrict := notes_unique_min_left _ k hb1 hb2 hcmp
  have hmem : noteEntry k ∈ notesList := mem_notesList.mpr ⟨k, by omega, rfl⟩
  have hfind := find_eq_of_unique _ _ hmem hstrict
  refine ⟨hfind, ?_⟩
  rw [mappedCents, hfind, hfx, hself, cents_note_ratio]
  ring

theorem mapped_at_50 (k : ℕ) (hk2 : k ≤ 94) :
    find_closest_note ((noteEntry k).2 * (2 : ℝ) ^ ((50 : ℝ) / 1200)) = noteEntry k ∧
    mappedCents k 50 = 50 := by
  have hfx : (noteEntry k).2 * (2 : ℝ) ^ ((50 : ℝ) / 1200)
      = 440 * (2 : ℝ) ^ (noteExp k + 1 / 24) := by
    rw [noteEntry_snd', mul_assoc, ← Real.rpow_add two_pos]
    norm_num
  have hsucc : (noteEntry (k + 1)).2 = 440 * (2 : ℝ) ^ (noteExp k + 1 / 12) := by
    rw [noteEntry_snd', noteExp_succ]
  have hself : (noteEntry k).2 = 440 * (2 : ℝ) ^ noteExp k := noteEntry_snd' k
  have hb1 : (noteEntry k).2 ≤ (noteEntry k).2 * (2 : ℝ) ^ ((50 : ℝ) / 1200) := by
    rw [hfx]
    conv_lhs => rw [hself]
    exact note_fac_le _ _ (by linarith)
  have hb2 : (noteEntry k).2 * (2 : ℝ) ^ ((50 : ℝ) / 1200) ≤ (noteEntry (k + 1)).2 := by
    rw [hfx, hsucc]
    exact note_fac_le _ _ (by linarith)
  have hcmp : (noteEntry k).2 * (2 : ℝ) ^ ((50 : ℝ) / 1200) - (noteEntry k).2 <
      (noteEntry (k + 1)).2 - (noteEntry k).2 * (2 : ℝ) ^ ((50 : ℝ) / 1200) := by
    rw [hfx, hsucc, hself]
    exact dist_cmp_left (noteExp k) (1 / 24) (1 / 12) key_24
  have hstrict := notes_unique_min_left _ k hb1 hb2 hcmp
  have hmem : noteEntry k ∈ notesList := mem_notesList.mpr ⟨k, by omega, rfl⟩
  have hfind := find_eq_of_unique _ _ hmem hstrict
  refine ⟨hfind, ?_⟩
  rw [mappedCents, hfind, hfx, hself, cents_note_ratio]
  ring

theorem mapped_at_m10 (k : ℕ) (hk1 : 1 ≤ k) (hk2 : k ≤ 94) :
    find_closest_note ((noteEntry k).2 * (2 : ℝ) ^ ((-10 : ℝ) / 1200)) = noteEntry k ∧
    mappedCents k (-10) = -10 := by
  have hj1 : (k - 1) + 1 = k := Nat.sub_add_cancel hk1
  have hpred : (noteEntry (k - 1)).2 = 440 * (2 : ℝ) ^ (noteExp k - 1 / 12) := by
    rw [noteEntry_snd', noteExp_pred k hk1]
  have hfx : (noteEntry k).2 * (2 : ℝ) ^ ((-10 : ℝ) / 1200)
      = 440 * (2 : ℝ) ^ ((noteExp k - 1 / 12) + 3 / 40) := by
    rw [noteEntry_snd', mul_assoc, ← Real.rpow_add two_pos]
    rw [show noteExp k + (-10 : ℝ) / 1200 = (noteExp k - 1 / 12) + 3 / 40 by ring]
  have hself : (noteEntry k).2 = 440 * (2 : ℝ) ^ ((noteExp k - 1 / 12) + 1 / 12) := by
    rw [noteEntry_snd']
    rw [show (noteExp k - 1 / 12 + 1 / 12 : ℝ) = noteExp k from by ring]
  have hsucc_eq : (noteEntry ((k - 1) + 1)).2 = (noteEntry k).2 := by rw [hj1]
  have hb1 : (noteEntry (k - 1)).2 ≤ (noteEntry k).2 * (2 : ℝ) ^ ((-10 : ℝ) / 1200) := by
    rw [hpred, hfx]
    rw [show noteExp k - 1 / 12 = (noteExp k - 1 / 12) + 0 from by ring]
    exact note_fac_le _ _ (by linarith)
  have hb2 : (noteEntry k).2 * (2 : ℝ) ^ ((-10 : ℝ) / 1200) ≤ (noteEntry ((k - 1) + 1)).2 := by
    rw [hsucc_eq, hfx, hself]
    exact note_fac_le _ _ (by linarith)
  have hcmp : (noteEntry ((k - 1) + 1)).2 - (noteEntry k).2 * (2 : ℝ) ^ ((-10 : ℝ) / 1200) <
      (noteEntry k).2 * (2 : ℝ) ^ ((-10 : ℝ) / 1200) - (noteEntry (k - 1)).2 := by
    rw [hsucc_eq, hfx, hself, hpred]
    exact dist_cmp_right (noteExp k - 1 / 12) (3 / 40) (1 / 12) key_m10
  have hstrict := notes_unique_min_right _ (k - 1) hb1 hb2 hcmp
  rw [hj1] at hstrict
  have hmem : noteEntry k ∈ notesList := mem_notesList.mpr ⟨k, by omega, rfl⟩
  have hfind := find_eq_of_unique _ _ hmem hstrict
  refine ⟨hfind, ?_⟩
  rw [mappedCents, hfind, hfx, hself, cents_note_ratio]
  ring

theorem mapped_at_m50 (k : ℕ) (hk1 : 1 ≤ k) (hk2 : k ≤ 94) :
    find_closest_note ((noteEntry k).2 * (2 : ℝ) ^ ((-50 : ℝ) / 1200)) = noteEntry (k - 1) ∧
    mappedCents k (-50) = 50 := by
  have hj1 : (k - 1) + 1 = k := Nat.sub_add_cancel hk1
  have hpred : (noteEntry (k - 1)).2 = 440 * (2 : ℝ) ^ (noteExp k - 1 / 12) := by
    rw [noteEntry_snd', noteExp_pred k hk1]
  have hfx : (noteEntry k).2 * (2 : ℝ) ^ ((-50 : ℝ) / 1200)
      = 440 * (2 : ℝ) ^ ((noteExp k - 1 / 12) + 1 / 24) := by
    rw [noteEntry_snd', mul_assoc, ← Real.rpow_add two_pos]
    rw [show noteExp k + (-50 : ℝ) / 1200 = (noteExp k - 1 / 12) + 1 / 24 by ring]
  have hself : (noteEntry k).2 = 440 * (2 : ℝ) ^ ((noteExp k - 1 / 12) + 1 / 12) := by
    rw [noteEntry_snd']
    rw [show (noteExp k - 1 / 12 + 1 / 12 : ℝ) = noteExp k from by ring]
  have hsucc_eq : (noteEntry ((k - 1) + 1)).2 = (noteEntry k).2 := by rw [hj1]
  have hb1 : (noteEntry (k - 1)).2 ≤ (noteEntry k).2 * (2 : ℝ) ^ ((-50 : ℝ) / 1200) := by
    rw [hpred, hfx]
    rw [show noteExp k - 1 / 12 = (noteExp k - 1 / 12) + 0 from by ring]
    exact note_fac_le _ _ (by linarith)
  have hb2 : (noteEntry k).2 * (2 : ℝ) ^ ((-50 : ℝ) / 1200) ≤ (noteEntry ((k - 1) + 1)).2 := by
    rw [hsucc_eq, hfx, hself]
    exact note_fac_le _ _ (by linarith)
  have hcmp : (noteEntry k).2 * (2 : ℝ) ^ ((-50 : ℝ) / 1200) - (noteEntry (k - 1)).2 <
      (noteEntry ((k - 1) + 1)).2 - (noteEntry k).2 * (2 : ℝ) ^ ((-50 : ℝ) / 1200) := by
    rw [hsucc_eq, hfx, hself, hpred]
    exact dist_cmp_left (noteExp k - 1 / 12) (1 / 24) (1 / 12) key_24
  have hstrict := notes_unique_min_left _ (k - 1) hb1 hb2 hcmp
  have hmem : noteEntry (k - 1) ∈ notesList := mem_notesList.mpr ⟨k - 1, by omega, rfl⟩
  have hfind := find_eq_of_unique _ _ hmem hstrict
  refine ⟨hfind, ?_⟩
  rw [mappedCents, hfind, hfx, hpred, cents_note_ratio]
  ring

/-- Sign convention of the cents formula: positive iff sharp. -/
theorem cents_sign (fr t : ℝ) (hf : 0 < fr) (ht : 0 < t) : 0 < cents fr t ↔ t < fr := by
  rw [cents]
  have hdivpos : 0 < fr / t := div_pos hf ht
  constructor
  · intro h
    have hlogb : 0 < Real.logb 2 (fr / t) := by nlinarith
    have := (Real.logb_pos_iff (by norm_num : (1 : ℝ) < 2) hdivpos).mp hlogb
    exact (one_lt_div ht).mp this
  · intro h
    have h1 : 1 < fr / t := (one_lt_div ht).mpr h
    have := (Real.logb_pos_iff (by norm_num : (1 : ℝ) < 2) hdivpos).mpr h1
    nlinarith

/-- C5 counterexample: for the fixed target note A4 (table index 57,
440 Hz), mapping `440 * 2^(-50/1200)` does *not* give a cents offset within
0.01 of `-50`: the mapper selects the absolutely-nearest (lower) neighbour
G#4, so the reported offset is `+50`. -/
theorem cents_minus50_counterexample :
    ¬ (|mappedCents 57 (-50) - (-50)| ≤ 0.01) := by
  have h := (mapped_at_m50 57 (by norm_num) (by norm_num)).2
  rw [h]
  norm_num

/-- C5 amended: the cents offset is `1200 * log2(freq/target)`, positive
exactly when the detected pitch is above the selected target; for every
table note with both neighbours present (indices `1..94`), mapping
`target * 2^(c/1200)` yields a cents offset of exactly `c` for
`c ∈ {-10, 0, 10, 50}`, but at `c = -50` the mapper selects the next lower
note (nearest in absolute Hz) and reports `+50` cents. -/
theorem cents_formula_and_scale (k : ℕ) (hk1 : 1 ≤ k) (hk2 : k ≤ 94) :
    (∀ fr t : ℝ, 0 < fr → 0 < t → (0 < cents fr t ↔ t < fr)) ∧
    mappedCents k (-10) = -10 ∧
    mappedCents k 0 = 0 ∧
    mappedCents k 10 = 10 ∧
    mappedCents k 50 = 50 ∧
    (|mappedCents k (-10) - (-10)| ≤ 0.01 ∧ |mappedCents k 0 - 0| ≤ 0.01 ∧
      |mappedCents k 10 - 10| ≤ 0.01 ∧ |mappedCents k 50 - 50| ≤ 0.01) ∧
    find_closest_note ((noteEntry k).2 * (2 : ℝ) ^ ((-50 : ℝ) / 1200)) = noteEntry (k - 1) ∧
    mappedCents k (-50) = 50 := by
  have hm10 := mapped_at_m10 k hk1 hk2
  have h0 := mapped_at_0 k hk2
  have h10 := mapped_at_10 k hk2
  have h50 := mapped_at_50 k hk2
  have hm50 := mapped_at_m50 k hk1 hk2
  refine ⟨cents_sign, hm10.2, h0.2, h10.2, h50.2, ?_, hm50.1, hm50.2⟩
  rw [hm10.2, h0.2, h10.2, h50.2]
  norm_num

/-- C5 witness at the note A4 (`k = 57`). -/
theorem cents_formula_and_scale_witness :
    ((1 : ℕ) ≤ 57 ∧ (57 : ℕ) ≤ 94) ∧
    ((∀ fr t : ℝ, 0 < fr → 0 < t → (0 < cents fr t ↔ t < fr)) ∧
      mappedCents 57 (-10) = -10 ∧
      mappedCents 57 0 = 0 ∧
      mappedCents 57 10 = 10 ∧
      mappedCents 57 50 = 50 ∧
      (|mappedCents 57 (-10) - (-10)| ≤ 0.01 ∧ |mappedCents 57 0 - 0| ≤ 0.01 ∧
        |mappedCents 57 10 - 10| ≤ 0.01 ∧ |mappedCents 57 50 - 50| ≤ 0.01) ∧
      find_closest_note ((noteEntry 57).2 * (2 : ℝ) ^ ((-50 : ℝ) / 1200)) = noteEntry (57 - 1) ∧
      mappedCents 57 (-50) = 50) :=
  ⟨⟨by norm_num, by norm_num⟩, cents_formula_and_scale 57 (by norm_num) (by norm_num)⟩

end Tuner
